import Mathlib

/-!
Verification of the stanza vocabulary / batch-assembly / decoding core.

This file gives a shallow embedding, in Lean, of the parts of the source
relevant to the vocabulary subsystem (`models/common/vocab.py`), the batch
assemblers (`models/lemma/loader.py`, `models/mwt/data.py`) and the
prediction loops (`models/lemma/seq2seq_model.py`), together with proofs of
the behavioural properties claimed for them.

Conventions of the embedding:
* Python dicts are modelled as association lists in insertion order
  (looked up with `List.lookup`, first match); the dicts built by the code
  have distinct keys, so first-match lookup agrees with Python semantics.
* Fallible operations (a raw `d[k]` dict access, destructuring assignment,
  `max` of an empty list) are modelled with `Option`: `none` is a raised
  exception.
* Python list indexing (which accepts negative indices) is modelled by
  `pyListGet` over `Int`.
-/

/-- The reserved padding unit (`PAD` in `models/common/vocab.py`). -/
def PAD_UNIT : String := "<PAD>"

/-- The reserved unknown unit (the literal used by `Vocab.unit2id`). -/
def UNK_UNIT : String := "<UNK>"

/-- The reserved padding id (`PAD_ID = 0`). -/
def PAD_ID : Nat := 0

/-- First index of an element in a list, `none` if absent.  This models a
lookup in the Python dict `{w: i for i, w in enumerate(field)}` built by
`ComposedVocab.build_vocab` (fields never contain duplicates, so the first
index is the dict entry). -/
def indexOfOpt (l : List String) (x : String) : Option Nat :=
  List.findIdx? (fun y => y == x) l

/-- State of a plain unit vocabulary: the `_id2unit` list and the
`_unit2id` dict (as an association list in insertion order). -/
structure SimpleVocab where
  id2unit : List String
  unit2id : List (String × Nat)
deriving DecidableEq

/-- The `_unit2id` dict derived from an `_id2unit` list, i.e.
`{w: i for i, w in enumerate(id2unit)}`. -/
def mkUnit2id (l : List String) : List (String × Nat) :=
  l.enum.map (fun p => (p.2, p.1))

/-- Modelled from the spec: the concrete `build_vocab` of the unit
vocabulary subclass (`models/mwt/vocab.py`) is not part of the given
sources — only its base class `models/common/vocab.py` is.  Per the spec
(§3, §4.1) a built vocabulary has the reserved `PAD` unit at id 0, a
reserved `UNK` unit, ids assigned in first-seen order over the corpus, and
the default minimum frequency keeps every unit seen. -/
def buildSimpleVocab (units : List String) : SimpleVocab :=
  let l := units.foldl (fun acc u => if u ∈ acc then acc else acc ++ [u])
    [PAD_UNIT, UNK_UNIT]
  ⟨l, mkUnit2id l⟩

/-- `Vocab.unit2id` (`models/common/vocab.py` lines 38–43):
`normalize_unit` is the identity; return `self._unit2id[unit]` when
present, else `self._unit2id['<UNK>']`.  The final dict access is raw and
raises `KeyError` (here: `none`) when `'<UNK>'` is itself absent. -/
def vocabUnit2id (v : SimpleVocab) (u : String) : Option Nat :=
  match List.lookup u v.unit2id with
  | some i => some i
  | none => List.lookup UNK_UNIT v.unit2id

/-- Python list indexing with an `Int` index: nonnegative indices address
from the front, indices in `[-len, -1]` address from the back, anything
else raises `IndexError` (here: `none`). -/
def pyListGet {α : Type} (xs : List α) (i : Int) : Option α :=
  if 0 ≤ i then xs.get? i.toNat
  else if (-i).toNat ≤ xs.length then xs.get? (xs.length - (-i).toNat)
  else none

/-- `Vocab.id2unit` (`models/common/vocab.py` lines 45–46):
`return self._id2unit[id]`, a plain Python list indexing. -/
def vocabId2unit (v : SimpleVocab) (i : Int) : Option String :=
  pyListGet v.id2unit i

/-- One token of the persisted vocabulary file.  `Vocab.save` pickles the
two mappings; pickle is an external library, modelled here as a concrete
length-prefixed stream of tokens (a number, or one character of a unit). -/
inductive PTok : Type where
  | nat : Nat → PTok
  | ch : Char → PTok
deriving DecidableEq

/-- Serialize one string: its length, then its characters. -/
def encodeStr (s : String) : List PTok :=
  PTok.nat s.toList.length :: s.toList.map PTok.ch

/-- Read `n` character tokens from the stream. -/
def decodeChars : Nat → List PTok → Option (List Char × List PTok)
  | 0, st => some ([], st)
  | n + 1, PTok.ch c :: st =>
    (decodeChars n st).map (fun p => (c :: p.1, p.2))
  | _ + 1, _ => none

/-- Read one serialized string from the stream. -/
def decodeStr : List PTok → Option (String × List PTok)
  | PTok.nat n :: st =>
    (decodeChars n st).map (fun p => (String.mk p.1, p.2))
  | _ => none

/-- Serialize a list of strings (the `_id2unit` pickle object). -/
def encodeStrList (l : List String) : List PTok :=
  PTok.nat l.length :: l.foldr (fun s acc => encodeStr s ++ acc) []

/-- Read `n` serialized strings from the stream. -/
def decodeStrs : Nat → List PTok → Option (List String × List PTok)
  | 0, st => some ([], st)
  | n + 1, st =>
    (decodeStr st).bind (fun p =>
      (decodeStrs n p.2).map (fun q => (p.1 :: q.1, q.2)))

/-- Read one serialized string list from the stream. -/
def decodeStrList : List PTok → Option (List String × List PTok)
  | PTok.nat n :: st => decodeStrs n st
  | _ => none

/-- Serialize one `unit → id` entry. -/
def encodeEntry (e : String × Nat) : List PTok :=
  encodeStr e.1 ++ [PTok.nat e.2]

/-- Read one serialized `unit → id` entry from the stream. -/
def decodeEntry (st : List PTok) : Option ((String × Nat) × List PTok) :=
  (decodeStr st).bind (fun p =>
    match p.2 with
    | PTok.nat i :: st' => some ((p.1, i), st')
    | _ => none)

/-- Serialize the `_unit2id` dict (entries in insertion order, as pickle
serializes a dict). -/
def encodeEntries (l : List (String × Nat)) : List PTok :=
  PTok.nat l.length :: l.foldr (fun e acc => encodeEntry e ++ acc) []

/-- Read `n` serialized entries from the stream. -/
def decodeEntriesN : Nat → List PTok → Option (List (String × Nat) × List PTok)
  | 0, st => some ([], st)
  | n + 1, st =>
    (decodeEntry st).bind (fun p =>
      (decodeEntriesN n p.2).map (fun q => (p.1 :: q.1, q.2)))

/-- Read one serialized dict from the stream. -/
def decodeEntries : List PTok → Option (List (String × Nat) × List PTok)
  | PTok.nat n :: st => decodeEntriesN n st
  | _ => none

/-- `Vocab.save` (`models/common/vocab.py` lines 27–30): dump `_id2unit`,
then `_unit2id`, to the file. -/
def saveVocab (v : SimpleVocab) : List PTok :=
  encodeStrList v.id2unit ++ encodeEntries v.unit2id

/-- `Vocab.load` (`models/common/vocab.py` lines 22–25): read the
`_id2unit` object, then the `_unit2id` object, from the file. -/
def loadVocab (st : List PTok) : Option SimpleVocab :=
  (decodeStrList st).bind (fun p =>
    (decodeEntries p.2).map (fun q => SimpleVocab.mk p.1 q.1))

/-- Python `str.split(sep)` for a nonempty separator, on character lists:
non-overlapping left-to-right splitting, empty pieces kept (the extra
`Nat` argument is structural-recursion fuel, instantiated with the input
length). -/
def splitSepAux (sep : List Char) : Nat → List Char → List (List Char)
  | _, [] => [[]]
  | 0, l => [l]
  | fuel + 1, x :: xs =>
    if sep.isPrefixOf (x :: xs) then
      [] :: splitSepAux sep fuel (List.drop (sep.length - 1) xs)
    else
      match splitSepAux sep fuel xs with
      | [] => [[x]]
      | y :: ys => (x :: y) :: ys

/-- `ComposedVocab.unit2parts`, first half (`models/common/vocab.py`
lines 80–83): split the unit per character when the separator is empty,
else by the separator. -/
def splitUnit (sep : String) (unit : String) : List String :=
  if sep = "" then unit.toList.map (fun c => String.mk [c])
  else (splitSepAux sep.toList unit.toList.length unit.toList).map String.mk

/-- Insert a key into a Python dict modelled as an association list:
an existing key keeps its position and takes the new value, a new key is
appended. -/
def dictInsert (k : String) (v : List String) :
    List (String × List String) → List (String × List String)
  | [] => [(k, v)]
  | e :: es => if e.1 = k then (k, v) :: es else e :: dictInsert k v es

/-- `ComposedVocab.unit2parts`, keyed second half (`models/common/vocab.py`
lines 84–89): the placeholder `'_'` gives the empty dict; otherwise each
part must destructure as `key=values` (a `ValueError`, here `none`,
otherwise) and the values are comma-split. -/
def unit2partsKeyed (sep : String) (unit : String) :
    Option (List (String × List String)) :=
  let ps := splitUnit sep unit
  if ps = ["_"] then some []
  else
    (ps.mapM (fun p =>
      match splitUnit "=" p with
      | [k, v] => some (k, splitUnit "," v)
      | _ => none)).map
      (fun kvs : List (String × List String) =>
        kvs.foldl (fun d (kv : String × List String) =>
          dictInsert kv.1 kv.2 d) [])

/-- Append a sub-value to a field's sub-vocabulary if it is new
(`if v not in self._id2unit[key]: append`). -/
def addSubValue (f : List String) (v : String) : List String :=
  if v ∈ f then f else f ++ [v]

/-- Record one `key ↦ values` attribute of one unit during keyed
`build_vocab` (`models/common/vocab.py` lines 108–113): create the field
with the `PAD` prefix if new, then append each unseen value. -/
def addKeyed (V : List (String × List String)) (kv : String × List String) :
    List (String × List String) :=
  let V' := if V.any (fun e => e.1 == kv.1) then V else V ++ [(kv.1, [PAD_UNIT])]
  V'.map (fun e => if e.1 = kv.1 then (e.1, kv.2.foldl addSubValue e.2) else e)

/-- `ComposedVocab.build_vocab`, keyed branch (`models/common/vocab.py`
lines 103–113): decompose every unit (propagating a decomposition error)
and accumulate the per-key sub-vocabularies in first-seen key order. -/
def buildKeyedVocab (sep : String) (data : List String) :
    Option (List (String × List String)) :=
  (data.mapM (unit2partsKeyed sep)).map
    (fun pss => pss.foldl (fun V ps => ps.foldl addKeyed V) [])

/-- `ComposedVocab.unit2id`, keyed branch (`models/common/vocab.py`
line 94): one entry per known field key in build order; a key absent on
the unit gives `[0]`, a present key maps each of its values through the
field's dict with a raw access — an unseen value raises `KeyError`
(here `none`). -/
def keyedUnit2id (V : List (String × List String))
    (parts : List (String × List String)) : Option (List (List Nat)) :=
  V.mapM (fun e =>
    match List.lookup e.1 parts with
    | none => some [0]
    | some vals => vals.mapM (indexOfOpt e.2))

/-- Keyed encode of a raw unit: decompose, then map (either step can
raise). -/
def keyedEncode (sep : String) (V : List (String × List String))
    (unit : String) : Option (List (List Nat)) :=
  (unit2partsKeyed sep unit).bind (keyedUnit2id V)

/-- Replace the element at an index of a list (used to modify one
positional field). -/
def modifyNth {α : Type} (f : α → α) : Nat → List α → List α
  | _, [] => []
  | 0, x :: xs => f x :: xs
  | n + 1, x :: xs => x :: modifyNth f n xs

/-- Record part `p` at position `i` of one unit during positional
`build_vocab` (`models/common/vocab.py` lines 120–125): create field `i`
with the `PAD` prefix if new, then append the part if unseen.  (Positions
are processed in order, so a new field is always the next one; the
general padding keeps the function total.) -/
def updateFieldPos (V : List (List String)) (i : Nat) (p : String) :
    List (List String) :=
  let V' := if i < V.length then V
    else V ++ List.replicate (i + 1 - V.length) [PAD_UNIT]
  modifyNth (fun f => addSubValue f p) i V'

/-- Record all parts of one unit during positional `build_vocab`
(`for i, p in enumerate(parts)`). -/
def addPartsPos (V : List (List String)) (ps : List String) :
    List (List String) :=
  ps.enum.foldl (fun W ip => updateFieldPos W ip.1 ip.2) V

/-- `ComposedVocab.build_vocab`, positional branch (`models/common/vocab.py`
lines 114–125), at the level of already-decomposed units. -/
def buildPosFields (pss : List (List String)) : List (List String) :=
  pss.foldl addPartsPos []

/-- `ComposedVocab.build_vocab`, positional branch, on raw units: computing
`maxlen = max([len(p) for p in allparts])` raises `ValueError` (here
`none`) on an empty corpus. -/
def buildPosVocab (sep : String) (data : List String) :
    Option (List (List String)) :=
  if data = [] then none
  else some (buildPosFields (data.map (splitUnit sep)))

/-- `ComposedVocab.unit2id`, positional branch (`models/common/vocab.py`
line 96): for every field index of the built vocabulary, the dict-`get`
of the unit's part at that index with default `0`, or `0` outright when
the unit has no part there. -/
def posUnit2id (V : List (List String)) (parts : List String) : List Nat :=
  (List.range V.length).map (fun i =>
    if i < parts.length then (indexOfOpt (V.getD i []) (parts.getD i "")).getD 0
    else 0)

/-- Positional encode of a raw unit. -/
def posEncode (sep : String) (V : List (List String)) (unit : String) :
    List Nat :=
  posUnit2id V (splitUnit sep unit)

/-- Ordering used to model the length-sort of a batch: descending length,
ties broken by ascending original position (the stable descending sort of
the spec, made explicit on indexed examples). -/
def lenRel {α : Type} (len : α → Nat) (a b : Nat × α) : Prop :=
  len b.2 < len a.2 ∨ (len a.2 = len b.2 ∧ a.1 ≤ b.1)

instance {α : Type} (len : α → Nat) : DecidableRel (lenRel len) := fun _ _ =>
  inferInstanceAs (Decidable (_ ∨ _))

/-- The sorted indexed batch: each example paired with its original
position, sorted stably by descending length. -/
def sortAllIdx {α : Type} (len : α → Nat) (batch : List α) : List (Nat × α) :=
  List.insertionSort (lenRel len) batch.enum

/-- Modelled from the spec: `sort_all` (`models/common/data.py`) is not
part of the given sources — only its callers in the two `DataLoader`s are.
Per the spec (§3 Batch, §8) it sorts every field of the batch by
descending length, stably for equal lengths, and returns a permutation
`orig_idx` with `sorted[orig_idx[i]] == original[i]` for all `i`. -/
def sort_all {α : Type} (len : α → Nat) (batch : List α) :
    List α × List Nat :=
  let si := sortAllIdx len batch
  (si.map Prod.snd,
    (List.range batch.length).map (fun i => si.findIdx (fun p => p.1 == i)))

/-- The start-of-sequence marker string of `seq2seq_constant` (module not
in the given sources; the exact string is irrelevant to the claims). -/
def SOS_TOK : String := "<SOS>"

/-- The end-of-sequence marker string of `seq2seq_constant`. -/
def EOS_TOK : String := "<EOS>"

/-- The reserved unknown id of `seq2seq_constant`. -/
def UNK_ID : Nat := 1

/-- Modelled from the spec: `map_to_ids` (`models/common/data.py`) is not
part of the given sources.  Per the spec (§2.3) it maps each unit to its
id through the vocabulary, one id per unit. -/
def mapToIds (f : String → Nat) (units : List String) : List Nat :=
  units.map f

/-- The characters of a word, as unit strings (`list(d[0])` in Python). -/
def charsOf (s : String) : List String :=
  s.toList.map (fun c => String.mk [c])

/-- One preprocessed lemmatizer example (`models/lemma/loader.py`
lines 64–77): `[src, tgt_in, tgt_out, pos, edit_type]`. -/
structure ProcEx where
  src : List Nat
  tgtIn : List Nat
  tgtOut : List Nat
  pos : Nat
  edit : Nat
deriving DecidableEq

/-- `DataLoader.preprocess` (`models/lemma/loader.py` lines 64–77) on raw
`(word, upos, lemma)` triples.  The character vocabulary mapping `f`
models `vocab.unit2id` (total per the UNK fallback), `posLook` the POS
dict lookup, and `editType` the external `edit.get_edit_type`. -/
def preprocessLemma (f : String → Nat) (posLook : String → Option Nat)
    (editType : String → String → Nat)
    (data : List (String × String × String)) : List ProcEx :=
  data.map (fun d =>
    let tgt := charsOf d.2.2
    { src := mapToIds f ([SOS_TOK] ++ charsOf d.1 ++ [EOS_TOK])
      tgtIn := mapToIds f ([SOS_TOK] ++ tgt)
      tgtOut := mapToIds f (tgt ++ [EOS_TOK])
      pos := (posLook d.2.1).getD UNK_ID
      edit := editType d.1 d.2.2 })

/-- The padded width of one batch field: the maximum row length. -/
def tensorWidth (rows : List (List Nat)) : Nat :=
  rows.foldr (fun r m => max r.length m) 0

/-- Modelled from the spec: `get_long_tensor` (`models/common/data.py`)
is not part of the given sources.  Per the spec (§3 Batch, §4.3) it pads
every row of a field with `PAD` (id 0) to the field's maximum length,
giving a rectangular tensor. -/
def getLongTensor (rows : List (List Nat)) : List (List Nat) :=
  rows.map (fun r => r ++ List.replicate (tensorWidth rows - r.length) PAD_ID)

/-- The shape assertion of `DataLoader.__getitem__`
(`models/lemma/loader.py` lines 105–106, `models/mwt/data.py` lines
92–93): the padded target-input and target-output widths must agree. -/
def tgtShapeAssert (tgtIns tgtOuts : List (List Nat)) : Bool :=
  tensorWidth tgtIns == tensorWidth tgtOuts

/-- State of the greedy decoding loop of `Seq2SeqModel.predict_greedy`
(`models/lemma/seq2seq_model.py` lines 137–156). -/
structure GreedyState where
  done : List Bool
  totalDone : Nat
  outputSeqs : List (List Nat)
deriving DecidableEq

/-- One iteration of the inner `for i in range(batch_size)` loop of
`predict_greedy` (lines 148–155).  Line 152 of the source reads
`done[i] == True`: a comparison expression, not an assignment, so the
`done` array is never written; the embedding reproduces that by not
touching `done`. -/
def greedyBody (eosId : Nat) (preds : List Nat) (s : GreedyState) (i : Nat) :
    GreedyState :=
  if s.done.getD i false = false then
    let token := preds.getD i 0
    if token = eosId then { s with totalDone := s.totalDone + 1 }
    else { s with outputSeqs := modifyNth (fun o => o ++ [token]) i s.outputSeqs }
  else s

/-- The whole inner `for i in range(batch_size)` loop of `predict_greedy`
at one decoding step. -/
def greedyStep (batchSize eosId : Nat) (preds : List Nat)
    (st : GreedyState) : GreedyState :=
  (List.range batchSize).foldl (greedyBody eosId preds) st

/-- The `while total_done < batch_size and max_len < self.max_dec_len`
loop of `predict_greedy` (lines 142–155); the first argument is the
number of remaining steps (`max_dec_len - max_len`), the second the
current step, and `model step` gives the argmax prediction of each
example at that step. -/
def greedyGo (model : Nat → List Nat) (batchSize eosId : Nat) :
    Nat → Nat → GreedyState → GreedyState
  | 0, _, st => st
  | rem + 1, step, st =>
    if st.totalDone < batchSize then
      greedyGo model batchSize eosId rem (step + 1)
        (greedyStep batchSize eosId (model step) st)
    else st

/-- `predict_greedy`, from the point where the decode loop starts:
`done = [False] * batch_size`, `total_done = 0`,
`output_seqs = [[] for _ in range(batch_size)]`, then the step loop. -/
def runGreedy (model : Nat → List Nat) (batchSize eosId maxDecLen : Nat) :
    GreedyState :=
  greedyGo model batchSize eosId maxDecLen 0
    ⟨List.replicate batchSize false, 0, List.replicate batchSize []⟩

/-- Number of examples predicted as EOS at one step. -/
def eosCount (batchSize eosId : Nat) (preds : List Nat) : Nat :=
  ((List.range batchSize).filter (fun i => preds.getD i 0 = eosId)).length

/-- Total EOS occurrences over the first `t` steps. -/
def totalEOS (model : Nat → List Nat) (batchSize eosId t : Nat) : Nat :=
  ((List.range t).map (fun s => eosCount batchSize eosId (model s))).sum

/-- The number of decoding steps the greedy loop executes: the least
`t < maxDecLen` at which the accumulated EOS count reaches `batchSize`,
else `maxDecLen`. -/
def greedyExecSteps (model : Nat → List Nat)
    (batchSize eosId maxDecLen : Nat) : Nat :=
  match (List.range maxDecLen).find?
    (fun t => batchSize ≤ totalEOS model batchSize eosId t) with
  | some t => t
  | none => maxDecLen

/-- The canonical state of the greedy loop after `t` executed steps:
`done` still all-false (line 152 compares instead of assigning), the
counter holding every EOS occurrence so far, and each example's output
holding every non-EOS token predicted for it so far. -/
def greedyStateAt (model : Nat → List Nat) (batchSize eosId t : Nat) :
    GreedyState :=
  { done := List.replicate batchSize false
    totalDone := totalEOS model batchSize eosId t
    outputSeqs := (List.range batchSize).map (fun i =>
      ((List.range t).map (fun s => (model s).getD i 0)).filter
        (fun tok => tok ≠ eosId)) }

/-- Ordering used to model the beam's global top-K selection: descending
score, ties broken by ascending flattened index (the fixed selection
order of the spec). -/
def scoreRel (a b : Nat × WithBot ℤ) : Prop :=
  b.2 < a.2 ∨ (a.2 = b.2 ∧ a.1 ≤ b.1)

instance : DecidableRel scoreRel := fun _ _ =>
  inferInstanceAs (Decidable (_ ∨ _))

/-- Modelled from the spec: the `Beam` class (`models/lemma/beam.py`) is
not part of the given sources — only its caller `Seq2SeqModel.predict`
is.  Per the spec (§3 Beam, §4.4): per-step score table, emitted-token
table, back-pointer table, and a monotonically-updated finished flag. -/
structure Beam where
  scores : List (WithBot ℤ)
  nextYs : List (List Nat)
  prevKs : List (List Nat)
  done : Bool
deriving DecidableEq

/-- Modelled from the spec (§4.4): initial beam with the start token
replicated across the K slots, score 0 for slot 0 and −∞ for the rest. -/
def initBeam (K sosId : Nat) : Beam :=
  { scores := (0 : WithBot ℤ) :: List.replicate (K - 1) ⊥
    nextYs := [List.replicate K sosId]
    prevKs := []
    done := false }

/-- Modelled from the spec (§4.4, transition steps 1–4): add the
cumulative scores, flatten, take the global top K (descending score,
fixed tie order), record parent `index / V`, token `index % V` and the
new scores, and mark the beam DONE when the top hypothesis emits EOS.
Returns the early-exit signal alongside the new state. -/
def Beam.advance (eosId : Nat) (b : Beam)
    (logProbs : List (List (WithBot ℤ))) : Beam × Bool :=
  let K := b.scores.length
  let V := (logProbs.headD []).length
  let flat := (List.range K).flatMap (fun k => (List.range V).map (fun v =>
    (k * V + v, b.scores.getD k ⊥ + (logProbs.getD k []).getD v ⊥)))
  let top := (List.insertionSort scoreRel flat).take K
  let nextY := top.map (fun e => e.1 % V)
  let newDone := b.done || (nextY.headD 0 == eosId)
  ({ scores := top.map Prod.snd
     nextYs := b.nextYs ++ [nextY]
     prevKs := b.prevKs ++ [top.map (fun e => e.1 / V)]
     done := newDone }, newDone)

/-- State of the instrumented beam-search prediction loop: the beams of
the batch, and — instrumentation for the temporal claim — how many times
`advance` has been called on each beam, in total and while the beam was
already DONE. -/
structure PredictState where
  beams : List Beam
  counts : List Nat
  countsAfterDone : List Nat
deriving DecidableEq

/-- One iteration of the `for b in range(batch_size)` loop of
`Seq2SeqModel.predict` (`models/lemma/seq2seq_model.py` lines 190–197):
`advance` is called on every beam of the batch, unconditionally; the
returned number is `len(done)`, the count of beams whose `advance`
reported DONE this step. -/
def predictStep (eosId : Nat) (lps : Nat → List (List (WithBot ℤ)))
    (st : PredictState) : PredictState × Nat :=
  let res := st.beams.enum.map (fun bi => Beam.advance eosId bi.2 (lps bi.1))
  (
    { beams := res.map Prod.fst
      counts := st.counts.map (fun c => c + 1)
      countsAfterDone := List.zipWith
        (fun c (bm : Beam) => if bm.done then c + 1 else c)
        st.countsAfterDone st.beams },
    (res.filter Prod.snd).length)

/-- The `for i in range(self.max_dec_len)` loop of `Seq2SeqModel.predict`
(lines 183–200): every step advances every beam, and the loop breaks
early only when `len(done) == batch_size` — i.e. when every beam of the
batch reports DONE at the same step. -/
def predictGo (eosId batchSize : Nat)
    (model : Nat → Nat → List (List (WithBot ℤ))) :
    Nat → Nat → PredictState → PredictState
  | 0, _, st => st
  | rem + 1, step, st =>
    let p := predictStep eosId (model step) st
    if p.2 = batchSize then p.1
    else predictGo eosId batchSize model rem (step + 1) p.1

/-- `Seq2SeqModel.predict` from beam setup through the main loop
(lines 173–200), instrumented with advance-call counts. -/
def runPredict (eosId batchSize K sosId maxDecLen : Nat)
    (model : Nat → Nat → List (List (WithBot ℤ))) : PredictState :=
  predictGo eosId batchSize model maxDecLen 0
    ⟨List.replicate batchSize (initBeam K sosId),
     List.replicate batchSize 0, List.replicate batchSize 0⟩

/-- A finite score as a beam score.  Beam scores are real-valued summed
log-probabilities in the source; the claims proved here are order and
control-flow properties only, so they are modelled over `ℤ` extended
with `⊥` as the −∞ used for empty beam slots. -/
def wb (q : ℤ) : WithBot ℤ := (q : WithBot ℤ)

/-- A concrete deterministic step model for the beam-search caller, with
`K = 2`, vocabulary size 3 and EOS id 2: beam 0's top prediction is EOS
from step 0 on; beam 1's top prediction is token 0 at step 0 and EOS from
step 1 on. -/
def c9model : Nat → Nat → List (List (WithBot ℤ)) := fun step b =>
  if b = 0 then [[wb (-1), wb (-2), wb 0], [wb (-1), wb (-2), wb 0]]
  else if step = 0 then [[wb 0, wb (-1), wb (-2)], [wb 0, wb (-1), wb (-2)]]
  else [[wb (-1), wb (-2), wb 0], [wb (-1), wb (-2), wb 0]]

/-- The concrete instrumented run for the temporal claim: batch of two
examples, beam size 2, EOS id 2, start id 0, up to 3 decoding steps. -/
def c9run : PredictState := runPredict 2 2 2 0 3 c9model

/-! ## Serialization round trip -/

theorem decodeChars_encode (cs : List Char) (rest : List PTok) :
    decodeChars cs.length (cs.map PTok.ch ++ rest) = some (cs, rest) := by
  induction cs generalizing rest with
  | nil => rfl
  | cons c cs ih => simp [decodeChars, ih]

theorem decodeStr_encode (s : String) (rest : List PTok) :
    decodeStr (encodeStr s ++ rest) = some (s, rest) := by
  show (decodeChars s.toList.length (s.toList.map PTok.ch ++ rest)).map
    (fun p => (String.mk p.1, p.2)) = some (s, rest)
  rw [decodeChars_encode]
  rfl

theorem decodeStrs_encode (l : List String) (rest : List PTok) :
    decodeStrs l.length (l.foldr (fun s acc => encodeStr s ++ acc) [] ++ rest) =
      some (l, rest) := by
  induction l generalizing rest with
  | nil => rfl
  | cons s l ih =>
    have h1 := decodeStr_encode s
      (l.foldr (fun s acc => encodeStr s ++ acc) [] ++ rest)
    simp only [List.foldr_cons, List.length_cons, List.append_assoc, decodeStrs,
      h1, Option.some_bind, ih]
    rfl

theorem decodeStrList_encode (l : List String) (rest : List PTok) :
    decodeStrList (encodeStrList l ++ rest) = some (l, rest) := by
  simpa [encodeStrList, decodeStrList] using decodeStrs_encode l rest

theorem decodeEntry_encode (e : String × Nat) (rest : List PTok) :
    decodeEntry (encodeEntry e ++ rest) = some (e, rest) := by
  simp [encodeEntry, decodeEntry, decodeStr_encode]

theorem decodeEntriesN_encode (l : List (String × Nat)) (rest : List PTok) :
    decodeEntriesN l.length (l.foldr (fun e acc => encodeEntry e ++ acc) [] ++ rest) =
      some (l, rest) := by
  induction l generalizing rest with
  | nil => rfl
  | cons e l ih =>
    have h1 := decodeEntry_encode e
      (l.foldr (fun e acc => encodeEntry e ++ acc) [] ++ rest)
    simp only [List.foldr_cons, List.length_cons, List.append_assoc, decodeEntriesN,
      h1, Option.some_bind, ih]
    rfl

theorem decodeEntries_encode (l : List (String × Nat)) (rest : List PTok) :
    decodeEntries (encodeEntries l ++ rest) = some (l, rest) := by
  simpa [encodeEntries, decodeEntries] using decodeEntriesN_encode l rest

/-- C5: saving a vocabulary and loading from the saved file yields a
vocabulary with the same `id2unit` and `unit2id` mappings (hence the same
size), and re-saving the loaded vocabulary produces byte-identical file
output. -/
theorem c5_save_load_roundtrip (v : SimpleVocab) :
    loadVocab (saveVocab v) = some v ∧
    (loadVocab (saveVocab v)).map saveVocab = some (saveVocab v) := by
  have h := decodeStrList_encode v.id2unit (encodeEntries v.unit2id)
  have h2 := decodeEntries_encode v.unit2id []
  rw [List.append_nil] at h2
  have h1 : loadVocab (saveVocab v) = some v := by
    simp [loadVocab, saveVocab, h, h2]
  exact ⟨h1, by rw [h1]; rfl⟩

/-! ## Vocabulary lookups -/

theorem pyListGet_isSome {α : Type} (xs : List α) (i : Int) :
    (pyListGet xs i).isSome ↔
      -(xs.length : Int) ≤ i ∧ i < (xs.length : Int) := by
  unfold pyListGet
  split_ifs with h0 h1
  · rw [Option.isSome_iff_ne_none, Ne, List.get?_eq_none]
    omega
  · rw [Option.isSome_iff_ne_none, Ne, List.get?_eq_none]
    omega
  · simp only [Option.isSome_none, Bool.false_eq_true, false_iff]
    omega

/-- C7 (amended): `id2unit` is Python list indexing, which also accepts
negative indices addressing from the back: it returns a unit exactly for
`i ∈ [-size, size)` — in particular the `i`-th unit for `0 ≤ i < size` —
and raises `IndexError` exactly for `i` outside `[-size, size)`. -/
theorem c7_id2unit_range (v : SimpleVocab) (i : Int) :
    (vocabId2unit v i = none ↔
      i < -(v.id2unit.length : Int) ∨ (v.id2unit.length : Int) ≤ i) ∧
    (0 ≤ i → i < (v.id2unit.length : Int) →
      vocabId2unit v i = v.id2unit.get? i.toNat) := by
  constructor
  · have h := pyListGet_isSome v.id2unit i
    rw [Option.isSome_iff_ne_none] at h
    unfold vocabId2unit
    constructor
    · intro hn
      by_contra hc
      exact (h.mpr (by omega)) hn
    · intro hr
      by_contra hn
      have := h.mp (fun hh => hn hh)
      omega
  · intro h0 _
    unfold vocabId2unit pyListGet
    simp [h0]

/-- Witness for the amended C7 theorem at a concrete input. -/
theorem c7_witness :
    (0 : Int) ≤ 2 ∧ (2 : Int) < ((buildSimpleVocab ["a"]).id2unit.length : Int) ∧
    vocabId2unit (buildSimpleVocab ["a"]) 2 =
      (buildSimpleVocab ["a"]).id2unit.get? (2 : Int).toNat :=
  ⟨by decide, by decide,
    (c7_id2unit_range (buildSimpleVocab ["a"]) 2).2 (by decide) (by decide)⟩

/-- Counterexample to C7 as stated: on the vocabulary built from the unit
`"a"` (size 3: PAD, UNK, `"a"`), the index `-1` lies outside `[0, size)`
yet `id2unit` does not fail — Python negative indexing returns the last
unit. -/
theorem c7_counterexample :
    ¬ ((0 : Int) ≤ -1) ∧
    vocabId2unit (buildSimpleVocab ["a"]) (-1) = some "a" := by
  constructor
  · decide
  · decide

theorem foldl_dedup_prefix (units : List String) (init : List String) :
    ∃ extra, units.foldl
      (fun acc u => if u ∈ acc then acc else acc ++ [u]) init = init ++ extra := by
  induction units generalizing init with
  | nil => exact ⟨[], by simp⟩
  | cons u us ih =>
    by_cases h : u ∈ init
    · simpa [h] using ih init
    · obtain ⟨e, he⟩ := ih (init ++ [u])
      refine ⟨[u] ++ e, ?_⟩
      simp only [List.foldl_cons, if_neg h, he, List.append_assoc]

theorem indexOfOpt_cons (y : String) (l : List String) (x : String) :
    indexOfOpt (y :: l) x =
      if y = x then some 0 else (indexOfOpt l x).map (· + 1) := by
  unfold indexOfOpt
  rw [List.findIdx?_cons]
  by_cases h : y = x
  · simp [h]
  · have hb : (y == x) = false := beq_eq_false_iff_ne.mpr h
    simp [hb, h, List.findIdx?_succ]

theorem indexOfOpt_eq_none_iff (l : List String) (x : String) :
    indexOfOpt l x = none ↔ x ∉ l := by
  rw [indexOfOpt, List.findIdx?_eq_none_iff]
  constructor
  · intro h hx
    have hc := h x hx
    simp at hc
  · intro h y hy
    exact beq_eq_false_iff_ne.mpr (fun e => h (e ▸ hy))

theorem lookup_enumFrom_swap (l : List String) (u : String) (n : Nat) :
    List.lookup u ((l.enumFrom n).map (fun p => (p.2, p.1))) =
      List.findIdx? (fun y => y == u) l n := by
  induction l generalizing n with
  | nil => rfl
  | cons x xs ih =>
    by_cases h : x = u
    · subst h
      simp [List.lookup_cons, List.findIdx?_cons]
    · have h1 : (u == x) = false := beq_eq_false_iff_ne.mpr (fun e => h e.symm)
      have h2 : (x == u) = false := beq_eq_false_iff_ne.mpr h
      simp [List.lookup_cons, List.findIdx?_cons, h1, h2, ih]

theorem lookup_mkUnit2id (l : List String) (u : String) :
    List.lookup u (mkUnit2id l) = indexOfOpt l u := by
  have h := lookup_enumFrom_swap l u 0
  simpa [mkUnit2id, List.enum, indexOfOpt] using h

/-- C1: for every unit absent from a built vocabulary, `unit2id` returns
the id of the reserved `UNK` unit (id 1 in the modelled build) and never
raises: the UNK unit is guaranteed present by construction. -/
theorem c1_unit2id_absent_returns_unk (units : List String) (u : String)
    (hu : u ∉ (buildSimpleVocab units).id2unit) :
    vocabUnit2id (buildSimpleVocab units) u = some 1 ∧
    (buildSimpleVocab units).id2unit.get? 1 = some UNK_UNIT := by
  obtain ⟨extra, hex⟩ := foldl_dedup_prefix units [PAD_UNIT, UNK_UNIT]
  have hid : (buildSimpleVocab units).id2unit =
      [PAD_UNIT, UNK_UNIT] ++ extra := by
    simp only [buildSimpleVocab]
    exact hex
  have hu2 : (buildSimpleVocab units).unit2id =
      mkUnit2id ((buildSimpleVocab units).id2unit) := rfl
  have hlu : List.lookup u (buildSimpleVocab units).unit2id = none := by
    rw [hu2, lookup_mkUnit2id, indexOfOpt_eq_none_iff]
    exact hu
  have hpu : PAD_UNIT ≠ UNK_UNIT := by decide
  have hunk : List.lookup UNK_UNIT (buildSimpleVocab units).unit2id = some 1 := by
    rw [hu2, lookup_mkUnit2id, hid]
    simp only [List.cons_append, indexOfOpt_cons, if_neg hpu, if_pos rfl]
    rfl
  refine ⟨?_, ?_⟩
  · unfold vocabUnit2id
    rw [hlu, hunk]
  · rw [hid]
    rfl

/-- Witness for C1: `"zz"` was never seen when building over the single
unit `"a"`; `unit2id` returns id 1, the id of `"<UNK>"`. -/
theorem c1_witness :
    "zz" ∉ (buildSimpleVocab ["a"]).id2unit ∧
    (vocabUnit2id (buildSimpleVocab ["a"]) "zz" = some 1 ∧
      (buildSimpleVocab ["a"]).id2unit.get? 1 = some UNK_UNIT) :=
  ⟨by decide, c1_unit2id_absent_returns_unk ["a"] "zz" (by decide)⟩

/-! ## Composed vocabulary, keyed mode -/

theorem mapM_option_char {α β : Type} (f : α → Option β) (l : List α)
    (h : ∀ a ∈ l, (f a).isSome) :
    ∃ r : List β, l.mapM f = some r ∧ r.length = l.length ∧
      ∀ i : Nat, l[i]?.bind f = r[i]? := by
  induction l with
  | nil => exact ⟨[], rfl, rfl, fun i => by simp⟩
  | cons x xs ih =>
    obtain ⟨b, hb⟩ := Option.isSome_iff_exists.mp (h x (by simp))
    obtain ⟨rs, h1, h2, h3⟩ := ih (fun a ha => h a (by simp [ha]))
    refine ⟨b :: rs, ?_, by simp [h2], ?_⟩
    · rw [List.mapM_cons, hb, h1]
      rfl
    · intro i
      cases i with
      | zero => simp [hb]
      | succ j => simpa using h3 j

theorem mapM_option_eq_none {α β : Type} (f : α → Option β) (l : List α)
    (a : α) (ha : a ∈ l) (hfa : f a = none) : l.mapM f = none := by
  induction l with
  | nil => cases ha
  | cons x xs ih =>
    rw [List.mapM_cons]
    rcases List.mem_cons.mp ha with h | h
    · subst h
      rw [hfa]
      rfl
    · cases hfx : f x with
      | none => rfl
      | some b =>
        rw [ih h]
        rfl

/-- C2 (amended): in keyed mode, encoding a unit that carries, at a field
key known from build time, a sub-value never seen at build time fails
(the raw dict access raises `KeyError`); it does not yield sub-id 0.
Sub-id 0 is produced only for known field keys absent on the unit. -/
theorem c2_unknown_subvalue_fails (V : List (String × List String))
    (parts : List (String × List String)) (k : String) (f : List String)
    (vals : List String) (x : String)
    (hk : (k, f) ∈ V) (hp : List.lookup k parts = some vals)
    (hx : x ∈ vals) (hxf : x ∉ f) :
    keyedUnit2id V parts = none := by
  unfold keyedUnit2id
  apply mapM_option_eq_none _ _ (k, f) hk
  simp only [hp]
  exact mapM_option_eq_none _ _ x hx (by
    rw [indexOfOpt_eq_none_iff]
    exact hxf)

/-- Witness for the amended C2 theorem: vocabulary built from the single
tag `Case=Nom`; encoding `Case=Acc` carries the unseen value `Acc` at the
known key `Case`, and the encode fails. -/
theorem c2_witness :
    (("Case", [PAD_UNIT, "Nom"]) ∈ [("Case", [PAD_UNIT, "Nom"])]) ∧
    List.lookup "Case" [("Case", ["Acc"])] = some ["Acc"] ∧
    keyedUnit2id [("Case", [PAD_UNIT, "Nom"])] [("Case", ["Acc"])] = none :=
  ⟨by decide, by decide,
    c2_unknown_subvalue_fails [("Case", [PAD_UNIT, "Nom"])]
      [("Case", ["Acc"])] "Case" [PAD_UNIT, "Nom"] ["Acc"] "Acc"
      (by decide) (by decide) (by decide) (by decide)⟩

/-- Counterexample to C2 as stated: building the keyed vocabulary over the
single tag `Case=Nom` and encoding `Case=Gen` — the key `Case` is known,
the value `Gen` was never seen — raises `KeyError` (`none`) instead of
yielding sub-id 0. -/
theorem c2_counterexample :
    buildKeyedVocab "|" ["Case=Nom"] = some [("Case", [PAD_UNIT, "Nom"])] ∧
    keyedEncode "|" [("Case", [PAD_UNIT, "Nom"])] "Case=Gen" = none := by
  constructor
  · decide
  · decide

theorem keyedUnit2id_nil_parts (V : List (String × List String)) :
    keyedUnit2id V [] = some (List.replicate V.length [0]) := by
  induction V with
  | nil => rfl
  | cons e es ih =>
    unfold keyedUnit2id at ih ⊢
    rw [List.mapM_cons, ih]
    rfl

/-- C4: keyed encode yields one entry per field key known at build time,
in build-time key order: for every position `j` of the field list, the
entry decodes the values the unit carries at that key (elementwise, the
sub-id is the value's index in that field's sub-vocabulary), or is `[0]`
when the key is absent on the unit; the placeholder `_` decomposes to the
empty attribute set and encodes to `[0]` for every known field. -/
theorem c4_keyed_encode (V : List (String × List String))
    (parts : List (String × List String))
    (hvals : ∀ e ∈ V, ∀ vals, List.lookup e.1 parts = some vals →
      ∀ x ∈ vals, x ∈ e.2) :
    (∃ r : List (List Nat), keyedUnit2id V parts = some r ∧
      r.length = V.length ∧
      ∀ j : Nat, ∀ e, V[j]? = some e →
        (List.lookup e.1 parts = none → r[j]? = some [0]) ∧
        (∀ vals, List.lookup e.1 parts = some vals →
          ∃ ids : List Nat, r[j]? = some ids ∧ ids.length = vals.length ∧
            ∀ t : Nat, vals[t]?.bind (indexOfOpt e.2) = ids[t]?)) ∧
    (∀ sep, splitUnit sep "_" = ["_"] → unit2partsKeyed sep "_" = some []) ∧
    keyedUnit2id V [] = some (List.replicate V.length [0]) := by
  refine ⟨?_, ?_, keyedUnit2id_nil_parts V⟩
  case refine_2 =>
    intro sep hs
    simp [unit2partsKeyed, hs]
  · have hsome : ∀ e ∈ V, ((fun e : String × List String =>
        match List.lookup e.1 parts with
        | none => some [0]
        | some vals => vals.mapM (indexOfOpt e.2)) e).isSome := by
      intro e he
      show (match List.lookup e.1 parts with
        | none => some [0]
        | some vals => vals.mapM (indexOfOpt e.2)).isSome = true
      cases hl : List.lookup e.1 parts with
      | none => rfl
      | some vals =>
        obtain ⟨rr, hrr, -, -⟩ := mapM_option_char (indexOfOpt e.2) vals
          (fun x hx => by
            rw [Option.isSome_iff_ne_none, Ne, indexOfOpt_eq_none_iff]
            simp only [not_not]
            exact hvals e he vals hl x hx)
        show (vals.mapM (indexOfOpt e.2)).isSome = true
        rw [hrr]
        rfl
    obtain ⟨r, h1, h2, h3⟩ := mapM_option_char _ V hsome
    refine ⟨r, h1, h2, ?_⟩
    intro j e hj
    have hj3 := h3 j
    rw [hj] at hj3
    constructor
    · intro hnone
      rw [← hj3]
      simp only [Option.some_bind]
      rw [hnone]
    · intro vals hvals'
      have he : e ∈ V := List.getElem?_mem hj
      obtain ⟨ids, hi1, hi2, hi3⟩ := mapM_option_char (indexOfOpt e.2) vals
        (fun x hx => by
          rw [Option.isSome_iff_ne_none, Ne, indexOfOpt_eq_none_iff]
          simp only [not_not]
          exact hvals e he vals hvals' x hx)
      refine ⟨ids, ?_, hi2, hi3⟩
      rw [← hj3]
      simp only [Option.some_bind]
      rw [hvals']
      exact hi1

/-- Witness for C4 on the spec's example: vocabulary with fields `Case`
and `Number`; encoding the tag that carries only `Case=Nom` gives the
value's sub-id at `Case` and `[0]` at the absent `Number`; the
placeholder's empty attribute set encodes to `[0]` everywhere. -/
theorem c4_witness :
    keyedUnit2id [("Case", [PAD_UNIT, "Nom"]), ("Number", [PAD_UNIT, "Sing"])]
      [("Case", ["Nom"])] = some [[1], [0]] ∧
    keyedUnit2id [("Case", [PAD_UNIT, "Nom"]), ("Number", [PAD_UNIT, "Sing"])]
      [] = some [[0], [0]] := by
  have h := c4_keyed_encode
    [("Case", [PAD_UNIT, "Nom"]), ("Number", [PAD_UNIT, "Sing"])]
    [("Case", ["Nom"])] (by decide)
  refine ⟨by decide, ?_⟩
  rw [h.2.2]
  rfl

/-! ## Composed vocabulary, positional mode -/

theorem modifyNth_length {α : Type} (f : α → α) (n : Nat) (l : List α) :
    (modifyNth f n l).length = l.length := by
  induction l generalizing n with
  | nil => cases n <;> rfl
  | cons x xs ih =>
    cases n with
    | zero => rfl
    | succ m => simpa [modifyNth] using ih m

theorem updateFieldPos_length (V : List (List String)) (i : Nat) (p : String) :
    (updateFieldPos V i p).length = max V.length (i + 1) := by
  unfold updateFieldPos
  rw [modifyNth_length]
  by_cases h : i < V.length
  · rw [if_pos h]
    omega
  · rw [if_neg h]
    rw [List.length_append, List.length_replicate]
    omega

theorem foldl_updateField_length (ps : List String) (k : Nat)
    (V : List (List String)) :
    ((ps.enumFrom k).foldl (fun W ip => updateFieldPos W ip.1 ip.2) V).length =
      max V.length (if ps = [] then 0 else k + ps.length) := by
  induction ps generalizing k V with
  | nil => simp
  | cons p ps ih =>
    rw [List.enumFrom_cons, List.foldl_cons]
    rw [ih (k + 1) (updateFieldPos V k p)]
    rw [updateFieldPos_length]
    by_cases h : ps = []
    · subst h
      rw [if_pos rfl, if_neg (List.cons_ne_nil p [])]
      simp only [List.length_cons, List.length_nil]
      omega
    · rw [if_neg h, if_neg (List.cons_ne_nil p ps)]
      simp only [List.length_cons]
      omega

theorem addPartsPos_length (V : List (List String)) (ps : List String) :
    (addPartsPos V ps).length = max V.length ps.length := by
  unfold addPartsPos
  rw [show ps.enum = ps.enumFrom 0 from rfl]
  rw [foldl_updateField_length]
  by_cases h : ps = []
  · simp [h]
  · simp [h]

theorem buildPosFields_length_aux (pss : List (List String))
    (V : List (List String)) :
    (pss.foldl addPartsPos V).length =
      pss.foldl (fun n l => max n l.length) V.length := by
  induction pss generalizing V with
  | nil => rfl
  | cons ps pss ih =>
    rw [List.foldl_cons, List.foldl_cons, ih, addPartsPos_length]

theorem buildPosFields_length (pss : List (List String)) :
    (buildPosFields pss).length = pss.foldl (fun n l => max n l.length) 0 := by
  simpa [buildPosFields] using buildPosFields_length_aux pss []

/-- C3: positional encode of any unit has exactly one entry per field
fixed at build time (the number of fields is the maximum number of parts
over the corpus), and every field index beyond the unit's own number of
parts receives sub-id 0; concretely, building over `"ab"` and `"abc"`
with empty separator and encoding `"a"` yields `[id("a"), 0, 0]` with
`id("a") = 1`. -/
theorem c3_positional_encode (sep : String) (data : List String)
    (V : List (List String)) (u : String)
    (hV : buildPosVocab sep data = some V) :
    (posEncode sep V u).length = V.length ∧
    V.length = (data.map (fun d => (splitUnit sep d).length)).foldl max 0 ∧
    (∀ i, (splitUnit sep u).length ≤ i → i < V.length →
      (posEncode sep V u).getD i 1 = 0) ∧
    (buildPosVocab "" ["ab", "abc"] =
        some [[PAD_UNIT, "a"], [PAD_UNIT, "b"], [PAD_UNIT, "c"]] ∧
      posEncode "" [[PAD_UNIT, "a"], [PAD_UNIT, "b"], [PAD_UNIT, "c"]] "a" =
        [1, 0, 0] ∧
      ([[PAD_UNIT, "a"], [PAD_UNIT, "b"], [PAD_UNIT, "c"]].getD 0 []).getD 1 ""
        = "a") := by
  have hVe : V = buildPosFields (data.map (splitUnit sep)) := by
    unfold buildPosVocab at hV
    by_cases h : data = []
    · rw [if_pos h] at hV
      cases hV
    · rw [if_neg h] at hV
      exact (Option.some_inj.mp hV).symm
  refine ⟨?_, ?_, ?_, by decide, by decide, by decide⟩
  · simp [posEncode, posUnit2id]
  · rw [hVe, buildPosFields_length]
    simp only [List.foldl_map]
  · intro i hle hlt
    unfold posEncode posUnit2id
    rw [List.getD_eq_getElem?_getD, List.getElem?_map, List.getElem?_range hlt]
    show (some (if i < (splitUnit sep u).length
      then (indexOfOpt (V.getD i []) ((splitUnit sep u).getD i "")).getD 0
      else 0)).getD 1 = 0
    rw [if_neg (by omega)]
    rfl

/-- Witness for C3 at the spec's example: `"a"` has one part, field
index 1 is beyond it and receives sub-id 0. -/
theorem c3_witness :
    buildPosVocab "" ["ab", "abc"] =
      some [[PAD_UNIT, "a"], [PAD_UNIT, "b"], [PAD_UNIT, "c"]] ∧
    (splitUnit "" "a").length ≤ 1 ∧
    1 < ([[PAD_UNIT, "a"], [PAD_UNIT, "b"], [PAD_UNIT, "c"]] :
      List (List String)).length ∧
    (posEncode "" [[PAD_UNIT, "a"], [PAD_UNIT, "b"], [PAD_UNIT, "c"]] "a").getD
      1 1 = 0 :=
  ⟨by decide, by decide, by decide,
    (c3_positional_encode "" ["ab", "abc"]
      [[PAD_UNIT, "a"], [PAD_UNIT, "b"], [PAD_UNIT, "c"]] "a"
      (by decide)).2.2.1 1 (by decide) (by decide)⟩

/-! ## Greedy decoding loop -/

theorem modifyNth_getElem? {α : Type} (f : α → α) (n : Nat) (l : List α)
    (j : Nat) :
    (modifyNth f n l)[j]? = if j = n then (l[j]?).map f else l[j]? := by
  induction l generalizing n j with
  | nil => cases n <;> simp [modifyNth]
  | cons x xs ih =>
    cases n with
    | zero =>
      cases j with
      | zero => simp [modifyNth]
      | succ k => simp [modifyNth]
    | succ m =>
      cases j with
      | zero => simp [modifyNth]
      | succ k =>
        simp only [modifyNth, List.getElem?_cons_succ]
        rw [ih m k]
        by_cases h : k = m
        · rw [if_pos h, if_pos (by omega)]
        · rw [if_neg h, if_neg (by omega)]

theorem greedyFold_char (eosId : Nat) (preds : List Nat) (st : GreedyState)
    (hd : ∀ i, st.done.getD i false = false) (n : Nat) :
    ((List.range n).foldl (greedyBody eosId preds) st).done = st.done ∧
    ((List.range n).foldl (greedyBody eosId preds) st).totalDone =
      st.totalDone +
        ((List.range n).filter (fun i => preds.getD i 0 = eosId)).length ∧
    (∀ j, ((List.range n).foldl (greedyBody eosId preds) st).outputSeqs[j]? =
      if j < n
      then (st.outputSeqs[j]?).map (fun o =>
        o ++ (if preds.getD j 0 = eosId then [] else [preds.getD j 0]))
      else st.outputSeqs[j]?) := by
  induction n with
  | zero => exact ⟨rfl, by simp, fun j => by simp⟩
  | succ n ih =>
    obtain ⟨ih1, ih2, ih3⟩ := ih
    rw [List.range_succ, List.foldl_append, List.foldl_cons, List.foldl_nil]
    set r := (List.range n).foldl (greedyBody eosId preds) st with hr
    have hdn : r.done.getD n false = false := by
      rw [ih1]
      exact hd n
    have hcount : ((List.range n ++ [n]).filter
          (fun i => preds.getD i 0 = eosId)).length =
        ((List.range n).filter (fun i => preds.getD i 0 = eosId)).length +
          (if preds.getD n 0 = eosId then 1 else 0) := by
      rw [List.filter_append, List.length_append]
      by_cases ht : preds.getD n 0 = eosId
      · rw [if_pos ht, List.filter_cons, if_pos (by simpa using ht),
          List.filter_nil]
        rfl
      · rw [if_neg ht, List.filter_cons, if_neg (by simpa using ht),
          List.filter_nil]
        rfl
    by_cases ht : preds.getD n 0 = eosId
    · have hb : greedyBody eosId preds r n =
          { r with totalDone := r.totalDone + 1 } := by
        unfold greedyBody
        rw [if_pos hdn, if_pos ht]
      rw [hb]
      refine ⟨ih1, ?_, ?_⟩
      · simp only [ih2, hcount, if_pos ht]
        omega
      · intro j
        simp only
        rw [ih3 j]
        by_cases hj : j < n
        · rw [if_pos hj, if_pos (show j < n + 1 by omega)]
        · by_cases hj2 : j = n
          · subst hj2
            rw [if_neg (show ¬ j < j by omega),
              if_pos (show j < j + 1 by omega), ht, if_pos rfl]
            simp
          · rw [if_neg hj, if_neg (show ¬ j < n + 1 by omega)]
    · have hb : greedyBody eosId preds r n =
          { r with outputSeqs :=
            modifyNth (fun o => o ++ [preds.getD n 0]) n r.outputSeqs } := by
        unfold greedyBody
        rw [if_pos hdn, if_neg ht]
      rw [hb]
      refine ⟨ih1, ?_, ?_⟩
      · simp only [ih2, hcount, if_neg ht]
        omega
      · intro j
        simp only
        rw [modifyNth_getElem?]
        by_cases hj2 : j = n
        · subst hj2
          rw [if_pos rfl, ih3 j, if_neg (show ¬ j < j by omega),
            if_pos (show j < j + 1 by omega), if_neg ht]
        · rw [if_neg hj2, ih3 j]
          by_cases hj : j < n
          · rw [if_pos hj, if_pos (show j < n + 1 by omega)]
          · rw [if_neg hj, if_neg (show ¬ j < n + 1 by omega)]

theorem greedyStateAt_done_getD (model : Nat → List Nat)
    (bs eos t i : Nat) :
    (greedyStateAt model bs eos t).done.getD i false = false := by
  unfold greedyStateAt
  simp only
  rw [List.getD_eq_getElem?_getD, List.getElem?_replicate]
  by_cases h : i < bs
  · rw [if_pos h]
    rfl
  · rw [if_neg h]
    rfl

theorem greedyStep_stateAt (model : Nat → List Nat) (bs eos t : Nat) :
    greedyStep bs eos (model t) (greedyStateAt model bs eos t) =
      greedyStateAt model bs eos (t + 1) := by
  obtain ⟨h1, h2, h3⟩ := greedyFold_char eos (model t)
    (greedyStateAt model bs eos t)
    (fun i => greedyStateAt_done_getD model bs eos t i) bs
  show (List.range bs).foldl (greedyBody eos (model t))
    (greedyStateAt model bs eos t) = greedyStateAt model bs eos (t + 1)
  have hout : ((List.range bs).foldl (greedyBody eos (model t))
      (greedyStateAt model bs eos t)).outputSeqs =
      (greedyStateAt model bs eos (t + 1)).outputSeqs := by
    apply List.ext_getElem?
    intro j
    rw [h3 j]
    by_cases hj : j < bs
    · have hs1 : (greedyStateAt model bs eos t).outputSeqs[j]? =
          some (((List.range t).map (fun s => (model s).getD j 0)).filter
            (fun tok => tok ≠ eos)) := by
        simp [greedyStateAt, List.getElem?_map, List.getElem?_range hj]
      have hs2 : (greedyStateAt model bs eos (t + 1)).outputSeqs[j]? =
          some (((List.range (t + 1)).map (fun s => (model s).getD j 0)).filter
            (fun tok => tok ≠ eos)) := by
        simp [greedyStateAt, List.getElem?_map, List.getElem?_range hj]
      rw [if_pos hj, hs1, hs2, List.range_succ, List.map_append,
        List.filter_append]
      by_cases htok : (model t).getD j 0 = eos
      · have htok' : (model t)[j]?.getD 0 = eos := by
          rw [← List.getD_eq_getElem?_getD]
          exact htok
        rw [if_pos htok]
        simp [htok']
      · have htok' : ¬ (model t)[j]?.getD 0 = eos := by
          rw [← List.getD_eq_getElem?_getD]
          exact htok
        rw [if_neg htok]
        simp [htok']
    · have hs1 : (greedyStateAt model bs eos t).outputSeqs[j]? = none := by
        unfold greedyStateAt
        simp only
        exact List.getElem?_eq_none (by
          rw [List.length_map, List.length_range]
          omega)
      have hs2 : (greedyStateAt model bs eos (t + 1)).outputSeqs[j]? =
          none := by
        unfold greedyStateAt
        simp only
        exact List.getElem?_eq_none (by
          rw [List.length_map, List.length_range]
          omega)
      rw [if_neg hj, hs1, hs2]
  have heta : ((List.range bs).foldl (greedyBody eos (model t))
      (greedyStateAt model bs eos t)) =
      { done := ((List.range bs).foldl (greedyBody eos (model t))
          (greedyStateAt model bs eos t)).done,
        totalDone := ((List.range bs).foldl (greedyBody eos (model t))
          (greedyStateAt model bs eos t)).totalDone,
        outputSeqs := ((List.range bs).foldl (greedyBody eos (model t))
          (greedyStateAt model bs eos t)).outputSeqs } := rfl
  rw [heta, h1, h2, hout]
  unfold greedyStateAt
  simp only [GreedyState.mk.injEq]
  refine ⟨trivial, ?_, trivial⟩
  unfold totalEOS eosCount
  rw [List.range_succ, List.map_append, List.sum_append]
  simp

theorem find?_range_eq_some (p : Nat → Bool) (N t : Nat) (ht : t < N)
    (hp : p t = true) (hmin : ∀ u, u < t → p u = false) :
    (List.range N).find? p = some t := by
  have hN : N = (t + 1) + (N - (t + 1)) := by omega
  rw [hN, List.range_add, List.find?_append, List.range_succ,
    List.find?_append]
  have h1 : (List.range t).find? p = none := by
    rw [List.find?_eq_none]
    intro x hx
    rw [List.mem_range] at hx
    simp [hmin x hx]
  rw [h1]
  simp [hp]

theorem greedyGo_char (model : Nat → List Nat) (bs eos maxDecLen : Nat) :
    ∀ rem t, rem + t = maxDecLen →
    (∀ u, u < t → ¬ bs ≤ totalEOS model bs eos u) →
    greedyGo model bs eos rem t (greedyStateAt model bs eos t) =
      greedyStateAt model bs eos (greedyExecSteps model bs eos maxDecLen) := by
  intro rem
  induction rem with
  | zero =>
    intro t ht hmin
    have htm : t = maxDecLen := by omega
    subst htm
    have hexec : greedyExecSteps model bs eos t = t := by
      unfold greedyExecSteps
      have hnone : (List.range t).find?
          (fun u => bs ≤ totalEOS model bs eos u) = none := by
        rw [List.find?_eq_none]
        intro x hx
        rw [List.mem_range] at hx
        simpa using hmin x hx
      rw [hnone]
    rw [hexec]
    rfl
  | succ rem ih =>
    intro t ht hmin
    show greedyGo model bs eos (rem + 1) t (greedyStateAt model bs eos t) = _
    unfold greedyGo
    by_cases hc : (greedyStateAt model bs eos t).totalDone < bs
    · rw [if_pos hc]
      rw [greedyStep_stateAt]
      exact ih (t + 1) (by omega) (fun u hu => by
        by_cases hut : u < t
        · exact hmin u hut
        · have : u = t := by omega
          subst this
          have : (greedyStateAt model bs eos u).totalDone =
              totalEOS model bs eos u := rfl
          omega)
    · rw [if_neg hc]
      have hP : bs ≤ totalEOS model bs eos t := by
        have : (greedyStateAt model bs eos t).totalDone =
            totalEOS model bs eos t := rfl
        omega
      have hexec : greedyExecSteps model bs eos maxDecLen = t := by
        unfold greedyExecSteps
        rw [find?_range_eq_some _ maxDecLen t (by omega) (by simpa using hP)
          (fun u hu => by simpa using hmin u hu)]
      rw [hexec]

/-- C10: in `predict_greedy` the `done` flag is never set (line 152
compares instead of assigning): after the loop every `done[i]` is still
`False`; each example's output holds every non-EOS token predicted for it
over all executed steps — so non-EOS tokens after a first EOS are still
appended, and only EOS tokens themselves are excluded — and the global
`total_done` counter equals the total number of EOS occurrences over the
executed steps (counting repeats on the same example), which is what can
end the loop before `max_dec_len`. -/
theorem c10_greedy_characterization (model : Nat → List Nat)
    (bs eos maxDecLen : Nat) :
    (runGreedy model bs eos maxDecLen).done = List.replicate bs false ∧
    (runGreedy model bs eos maxDecLen).totalDone =
      totalEOS model bs eos (greedyExecSteps model bs eos maxDecLen) ∧
    (runGreedy model bs eos maxDecLen).outputSeqs =
      (List.range bs).map (fun i =>
        ((List.range (greedyExecSteps model bs eos maxDecLen)).map
          (fun s => (model s).getD i 0)).filter (fun tok => tok ≠ eos)) := by
  have h0 : (⟨List.replicate bs false, 0, List.replicate bs []⟩ :
      GreedyState) = greedyStateAt model bs eos 0 := by
    unfold greedyStateAt
    simp only [GreedyState.mk.injEq]
    refine ⟨trivial, rfl, ?_⟩
    apply List.ext_getElem?
    intro j
    rw [List.getElem?_replicate, List.getElem?_map]
    by_cases hj : j < bs
    · rw [if_pos hj, List.getElem?_range hj]
      rfl
    · rw [if_neg hj, List.getElem?_eq_none (by
        rw [List.length_range]
        omega)]
      rfl
  have hrun : runGreedy model bs eos maxDecLen =
      greedyStateAt model bs eos (greedyExecSteps model bs eos maxDecLen) := by
    unfold runGreedy
    rw [h0]
    exact greedyGo_char model bs eos maxDecLen maxDecLen 0 (by omega)
      (fun u hu => absurd hu (Nat.not_lt_zero u))
  rw [hrun]
  exact ⟨rfl, rfl, rfl⟩

/-! ## Beam-search prediction loop -/

/-- Counterexample to C9 as stated: in the concrete run `c9run` (batch of
two, beam 0's top token is EOS from step 0, beam 1's only from step 1),
beam 0 signals DONE at the first step, yet the caller advances it again
at the second step: each beam is advanced twice in total, and one of
beam 0's advance calls happens while it is already DONE. -/
theorem c9_counterexample :
    (predictStep 2 (c9model 0)
      ⟨List.replicate 2 (initBeam 2 0), List.replicate 2 0,
        List.replicate 2 0⟩).1.beams.map Beam.done = [true, false] ∧
    c9run.counts = [2, 2] ∧
    c9run.countsAfterDone = [1, 0] := by
  refine ⟨?_, ?_, ?_⟩
  · decide
  · decide
  · decide

theorem predictGo_counts (eos bs : Nat)
    (model : Nat → Nat → List (List (WithBot ℤ))) :
    ∀ rem t st c, st.counts = List.replicate bs c →
    ∃ c', (predictGo eos bs model rem t st).counts = List.replicate bs c' := by
  intro rem
  induction rem with
  | zero => exact fun t st c hc => ⟨c, hc⟩
  | succ rem ih =>
    intro t st c hc
    have hstep : (predictStep eos (model t) st).1.counts =
        List.replicate bs (c + 1) := by
      show st.counts.map (fun n => n + 1) = List.replicate bs (c + 1)
      rw [hc, List.map_replicate]
    show ∃ c', (if (predictStep eos (model t) st).2 = bs
        then (predictStep eos (model t) st).1
        else predictGo eos bs model rem (t + 1)
          (predictStep eos (model t) st).1).counts = List.replicate bs c'
    by_cases hif : (predictStep eos (model t) st).2 = bs
    · rw [if_pos hif]
      exact ⟨c + 1, hstep⟩
    · rw [if_neg hif]
      exact ih (t + 1) _ (c + 1) hstep

/-- C9 (amended): the caller does not stop advancing a DONE beam — at
every executed step of the prediction loop, `advance` is called on every
beam of the batch unconditionally, so all beams (DONE or not) receive the
same number of advance calls; the loop ends early only when every beam of
the batch reports DONE at the same step, or when `max_dec_len` steps have
run. -/
theorem c9_advance_uniform (eos bs K sos maxLen : Nat)
    (model : Nat → Nat → List (List (WithBot ℤ))) :
    ∃ c, (runPredict eos bs K sos maxLen model).counts =
      List.replicate bs c := by
  unfold runPredict
  exact predictGo_counts eos bs model maxLen 0 _ 0 rfl

/-! ## Batch sorting -/

theorem lenRel_total {α : Type} (len : α → Nat) (a b : Nat × α) :
    lenRel len a b ∨ lenRel len b a := by
  unfold lenRel
  omega

theorem lenRel_trans {α : Type} (len : α → Nat) (a b c : Nat × α)
    (h1 : lenRel len a b) (h2 : lenRel len b c) : lenRel len a c := by
  unfold lenRel at h1 h2 ⊢
  omega

theorem sortAllIdx_perm {α : Type} (len : α → Nat) (batch : List α) :
    List.Perm (sortAllIdx len batch) batch.enum :=
  List.perm_insertionSort _ _

theorem sortAllIdx_sorted {α : Type} (len : α → Nat) (batch : List α) :
    (sortAllIdx len batch).Pairwise (lenRel len) := by
  haveI : IsTotal (Nat × α) (lenRel len) := ⟨fun a b => lenRel_total len a b⟩
  haveI : IsTrans (Nat × α) (lenRel len) :=
    ⟨fun a b c => lenRel_trans len a b c⟩
  exact List.sorted_insertionSort _ _

theorem sortAllIdx_length {α : Type} (len : α → Nat) (batch : List α) :
    (sortAllIdx len batch).length = batch.length := by
  rw [(sortAllIdx_perm len batch).length_eq, List.enum_length]

theorem sortAllIdx_fst_nodup {α : Type} (len : α → Nat) (batch : List α) :
    ((sortAllIdx len batch).map Prod.fst).Nodup := by
  have hp : List.Perm ((sortAllIdx len batch).map Prod.fst)
      (batch.enum.map Prod.fst) :=
    (sortAllIdx_perm len batch).map _
  rw [List.enum_map_fst] at hp
  exact hp.nodup_iff.mpr (List.nodup_range _)

theorem sortAllIdx_mem {α : Type} (len : α → Nat) (batch : List α)
    (p : Nat × α) :
    p ∈ sortAllIdx len batch ↔ batch[p.1]? = some p.2 := by
  rw [(sortAllIdx_perm len batch).mem_iff]
  cases p
  exact List.mk_mem_enum_iff_getElem?

theorem sortAllIdx_filter_stable {α : Type} (len : α → Nat) (batch : List α)
    (q : Nat × α → Bool) (hq : ∀ p, q p = true → ∃ L, len p.2 = L ∧
      ∀ p', q p' = true → len p'.2 = L) :
    (sortAllIdx len batch).filter q = batch.enum.filter q := by
  have hperm : List.Perm ((sortAllIdx len batch).filter q)
      (batch.enum.filter q) :=
    (sortAllIdx_perm len batch).filter q
  have hne : (sortAllIdx len batch).Pairwise (fun a b => a.1 ≠ b.1) :=
    (List.pairwise_map.mp (sortAllIdx_fst_nodup len batch))
  have hs1 : ((sortAllIdx len batch).filter q).Pairwise
      (fun a b : Nat × α => a.1 < b.1) := by
    refine List.Pairwise.imp_of_mem ?_
      (((sortAllIdx_sorted len batch).and hne).filter q)
    intro a b ha hb hr
    have hqa : q a = true := (List.mem_filter.mp ha).2
    have hqb : q b = true := (List.mem_filter.mp hb).2
    obtain ⟨L, hLa, hall⟩ := hq a hqa
    have hLb := hall b hqb
    obtain ⟨hrel, hneq⟩ := hr
    unfold lenRel at hrel
    omega
  have hs2 : (batch.enum.filter q).Pairwise
      (fun a b : Nat × α => a.1 < b.1) := by
    refine List.Pairwise.filter q ?_
    have := List.pairwise_lt_range batch.length
    rw [← List.enum_map_fst batch] at this
    exact List.pairwise_map.mp this
  haveI : IsAntisymm (Nat × α) (fun a b => a.1 < b.1) :=
    ⟨fun a b h1 h2 => absurd h1 (by omega)⟩
  exact List.eq_of_perm_of_sorted hperm hs1 hs2

theorem sortAllIdx_findIdx_spec {α : Type} (len : α → Nat) (batch : List α)
    (i : Nat) (hi : i < batch.length) :
    (sortAllIdx len batch).findIdx (fun p => p.1 == i) < batch.length ∧
    ∃ y, (sortAllIdx len batch)[(sortAllIdx len batch).findIdx
        (fun p => p.1 == i)]? = some y ∧ y.1 = i ∧ batch[i]? = some y.2 := by
  have hib : batch[i]? = some (batch.get ⟨i, hi⟩) := by
    rw [List.getElem?_eq_getElem hi]
    rfl
  have hex : ∃ x ∈ sortAllIdx len batch, (fun p : Nat × α => p.1 == i) x =
      true := by
    refine ⟨(i, batch.get ⟨i, hi⟩), ?_, by simp⟩
    rw [sortAllIdx_mem]
    exact hib
  have hlt' : (sortAllIdx len batch).findIdx (fun p => p.1 == i) <
      (sortAllIdx len batch).length := List.findIdx_lt_length_of_exists hex
  refine ⟨by rwa [sortAllIdx_length] at hlt', ?_⟩
  refine ⟨(sortAllIdx len batch).get ⟨_, hlt'⟩, ?_, ?_, ?_⟩
  · rw [List.getElem?_eq_getElem hlt']
    rfl
  · have hy : (sortAllIdx len batch)[(sortAllIdx len batch).findIdx
        (fun p => p.1 == i)]? =
        some ((sortAllIdx len batch).get ⟨_, hlt'⟩) := by
      rw [List.getElem?_eq_getElem hlt']
      rfl
    have hp := List.findIdx_of_getElem?_eq_some hy
    simpa using hp
  · have hy : (sortAllIdx len batch)[(sortAllIdx len batch).findIdx
        (fun p => p.1 == i)]? =
        some ((sortAllIdx len batch).get ⟨_, hlt'⟩) := by
      rw [List.getElem?_eq_getElem hlt']
      rfl
    have hp := List.findIdx_of_getElem?_eq_some hy
    have h1 : ((sortAllIdx len batch).get ⟨_, hlt'⟩).1 = i := by simpa using hp
    have h2 : (sortAllIdx len batch).get ⟨_, hlt'⟩ ∈ sortAllIdx len batch :=
      List.getElem?_mem hy
    rw [sortAllIdx_mem] at h2
    rwa [h1] at h2

/-- C6: for every batch, the examples returned by the length-sort are in
non-increasing source-length order, stably for equal lengths (the
subsequence at every fixed length equals the original subsequence at that
length), and `orig_idx` is a bijection on `[0, chunk_size)` with
`sorted[orig_idx[i]] = original[i]`, so reindexing the sorted fields by
`orig_idx` restores the pre-sort order of the chunk. -/
theorem c6_batch_sort {α : Type} (len : α → Nat) (batch : List α) :
    ((sort_all len batch).1.Pairwise (fun a b => len b ≤ len a)) ∧
    (∀ L, (sort_all len batch).1.filter (fun x => len x == L) =
      batch.filter (fun x => len x == L)) ∧
    (sort_all len batch).2.length = batch.length ∧
    (∀ j ∈ (sort_all len batch).2, j < batch.length) ∧
    (sort_all len batch).2.Nodup ∧
    (∀ (d : α) (i : Nat), i < batch.length →
      (sort_all len batch).1.getD ((sort_all len batch).2.getD i 0) d =
        batch.getD i d) := by
  have hfst : (sort_all len batch).1 = (sortAllIdx len batch).map Prod.snd :=
    rfl
  have hsnd : (sort_all len batch).2 = (List.range batch.length).map
      (fun i => (sortAllIdx len batch).findIdx (fun p => p.1 == i)) := rfl
  refine ⟨?_, ?_, ?_, ?_, ?_, ?_⟩
  · rw [hfst]
    refine List.Pairwise.map _ ?_ (sortAllIdx_sorted len batch)
    intro a b h
    unfold lenRel at h
    omega
  · intro L
    rw [hfst, List.filter_map]
    conv_rhs => rw [← List.enum_map_snd batch, List.filter_map]
    refine congrArg (List.map Prod.snd) ?_
    apply sortAllIdx_filter_stable
    intro p hp
    refine ⟨L, by simpa using hp, fun p' hp' => by simpa using hp'⟩
  · rw [hsnd]
    simp
  · rw [hsnd]
    intro j hj
    simp only [List.mem_map, List.mem_range] at hj
    obtain ⟨i, hi, rfl⟩ := hj
    exact (sortAllIdx_findIdx_spec len batch i hi).1
  · rw [hsnd]
    refine List.Nodup.map_on ?_ (List.nodup_range _)
    intro i hi j hj heq
    rw [List.mem_range] at hi hj
    obtain ⟨-, y, hy, h1, -⟩ := sortAllIdx_findIdx_spec len batch i hi
    obtain ⟨-, hspec_j⟩ := sortAllIdx_findIdx_spec len batch j hj
    rw [heq] at hy
    obtain ⟨y', hy', h1', -⟩ := hspec_j
    rw [hy'] at hy
    cases hy
    omega
  · intro d i hi
    rw [hfst, hsnd]
    have hoidx : ((List.range batch.length).map
        (fun k => (sortAllIdx len batch).findIdx (fun p => p.1 == k))).getD
          i 0 =
        (sortAllIdx len batch).findIdx (fun p => p.1 == i) := by
      rw [List.getD_eq_getElem?_getD, List.getElem?_map,
        List.getElem?_range hi]
      rfl
    rw [hoidx]
    obtain ⟨-, y, hy, -, h2⟩ := sortAllIdx_findIdx_spec len batch i hi
    have hs : ((sortAllIdx len batch).map Prod.snd).getD
        ((sortAllIdx len batch).findIdx (fun p => p.1 == i)) d = y.2 := by
      rw [List.getD_eq_getElem?_getD, List.getElem?_map, hy]
      rfl
    rw [hs, List.getD_eq_getElem?_getD, h2]
    rfl

/-- Witness for C6 on the spec's example (lengths `[3,1,2]`): the sorted
order is `[len3, len2, len1]`, `orig_idx = [0,2,1]`, and reindexing the
sorted batch by `orig_idx` restores the original example at position 1. -/
theorem c6_witness :
    sort_all (fun l : List Nat => l.length) [[1, 2, 3], [9], [4, 5]] =
      ([[1, 2, 3], [4, 5], [9]], [0, 2, 1]) ∧
    (1 : Nat) < ([[1, 2, 3], [9], [4, 5]] : List (List Nat)).length ∧
    (sort_all (fun l : List Nat => l.length) [[1, 2, 3], [9], [4, 5]]).1.getD
      ((sort_all (fun l : List Nat => l.length)
        [[1, 2, 3], [9], [4, 5]]).2.getD 1 0) [] =
      ([[1, 2, 3], [9], [4, 5]] : List (List Nat)).getD 1 [] :=
  ⟨by decide, by decide,
    (c6_batch_sort (fun l : List Nat => l.length)
      [[1, 2, 3], [9], [4, 5]]).2.2.2.2.2 [] 1 (by decide)⟩

/-! ## Target shape assertion -/

theorem preprocessLemma_tgt_lengths (f : String → Nat)
    (posLook : String → Option Nat) (editType : String → String → Nat)
    (data : List (String × String × String)) (ex : ProcEx)
    (hex : ex ∈ preprocessLemma f posLook editType data) :
    ex.tgtIn.length = ex.tgtOut.length := by
  unfold preprocessLemma at hex
  rw [List.mem_map] at hex
  obtain ⟨d, -, rfl⟩ := hex
  simp [mapToIds]

theorem tensorWidth_congr (b1 b2 : List (List Nat))
    (hlen : b1.length = b2.length)
    (h : ∀ i : Nat, (b1[i]?.map List.length) = (b2[i]?.map List.length)) :
    tensorWidth b1 = tensorWidth b2 := by
  induction b1 generalizing b2 with
  | nil =>
    cases b2 with
    | nil => rfl
    | cons y ys => cases hlen
  | cons x xs ih =>
    cases b2 with
    | nil => cases hlen
    | cons y ys =>
      have h0 := h 0
      simp only [List.getElem?_cons_zero, Option.map_some] at h0
      have hx : x.length = y.length := by
        injection h0
      unfold tensorWidth
      rw [List.foldr_cons, List.foldr_cons]
      have ht : tensorWidth xs = tensorWidth ys :=
        ih ys (by simpa using hlen) (fun i => by simpa using h (i + 1))
      unfold tensorWidth at ht
      rw [hx, ht]

/-- C8: for every batch whose examples all come from `preprocess`, the
padded target-input and target-output tensors have equal width — for
every example `tgt_in = SOS ++ tgt` and `tgt_out = tgt ++ EOS` have equal
unpadded length, so the per-field maxima agree — and therefore the fatal
shape assertion of `__getitem__` holds on every such batch. -/
theorem c8_tgt_widths_equal (f : String → Nat)
    (posLook : String → Option Nat) (editType : String → String → Nat)
    (data : List (String × String × String)) (batch : List ProcEx)
    (hmem : ∀ ex ∈ batch, ex ∈ preprocessLemma f posLook editType data) :
    tensorWidth (batch.map (fun ex => ex.tgtIn)) =
      tensorWidth (batch.map (fun ex => ex.tgtOut)) ∧
    tgtShapeAssert (batch.map (fun ex => ex.tgtIn))
      (batch.map (fun ex => ex.tgtOut)) = true := by
  have hw : tensorWidth (batch.map (fun ex => ex.tgtIn)) =
      tensorWidth (batch.map (fun ex => ex.tgtOut)) := by
    apply tensorWidth_congr
    · simp
    · intro i
      rw [List.getElem?_map, List.getElem?_map]
      cases hbi : batch[i]? with
      | none => rfl
      | some ex =>
        have hex : ex ∈ batch := List.getElem?_mem hbi
        show some ex.tgtIn.length = some ex.tgtOut.length
        rw [preprocessLemma_tgt_lengths f posLook editType data ex
          (hmem ex hex)]
  refine ⟨hw, ?_⟩
  unfold tgtShapeAssert
  rw [hw]
  simp

/-- Witness for C8 on a concrete corpus: one example with word `"ab"`,
POS `"N"`, lemma `"a"`; the padded target widths agree and the assertion
holds. -/
theorem c8_witness :
    tensorWidth (((preprocessLemma (fun _ => 0) (fun _ => none)
        (fun _ _ => 0) [("ab", "N", "a")]).map (fun ex => ex.tgtIn))) =
      tensorWidth (((preprocessLemma (fun _ => 0) (fun _ => none)
        (fun _ _ => 0) [("ab", "N", "a")]).map (fun ex => ex.tgtOut))) ∧
    tgtShapeAssert
      ((preprocessLemma (fun _ => 0) (fun _ => none) (fun _ _ => 0)
        [("ab", "N", "a")]).map (fun ex => ex.tgtIn))
      ((preprocessLemma (fun _ => 0) (fun _ => none) (fun _ _ => 0)
        [("ab", "N", "a")]).map (fun ex => ex.tgtOut)) = true :=
  c8_tgt_widths_equal (fun _ => 0) (fun _ => none) (fun _ _ => 0)
    [("ab", "N", "a")] _ (fun _ h => h)
